import Mathlib

/-!
Verification of the cascadia CSS selector engine (`selector.go`).

Strings from the Go source are modelled as `List Char`; the Go code indexes
by bytes, but every byte the algorithms inspect is ASCII, so the char-level
view coincides with the byte-level one on the inspected positions.

An `html.Node` is a pointer graph with parent/sibling/child links; we model
a node as a finite ordered tree (`Node`) and a node-with-its-links as a
zipper location (`Loc`), from which the parent and previous-sibling walks of
the matching engine are derived.
-/

namespace Cascadia

abbrev Str := List Char

/-- The node kinds of golang.org/x/net/html (`html.NodeType`). -/
inductive NodeType where
  | errorNode
  | textNode
  | documentNode
  | elementNode
  | commentNode
  | doctypeNode
  | rawNode
  deriving DecidableEq, Repr

/-- `html.Attribute` (the Namespace field, unused by the engine, is omitted). -/
structure Attribute where
  key : Str
  val : Str
  deriving DecidableEq, Repr

/-- The tree part of `html.Node`: type, DataAtom, Data, Attr and the
children in document order. -/
inductive Node where
  | mk (ntype : NodeType) (dataAtom : Nat) (data : Str)
       (attr : List Attribute) (children : List Node)

def Node.ntype : Node → NodeType
  | .mk t _ _ _ _ => t

def Node.dataAtom : Node → Nat
  | .mk _ a _ _ _ => a

def Node.data : Node → Str
  | .mk _ _ d _ _ => d

def Node.attr : Node → List Attribute
  | .mk _ _ _ a _ => a

def Node.children : Node → List Node
  | .mk _ _ _ _ c => c

/-- One level of zipper context: the data of the parent node together with
the siblings before the focused child (nearest first) and after it. -/
structure Crumb where
  ntype : NodeType
  dataAtom : Nat
  data : Str
  attr : List Attribute
  before : List Node
  after : List Node

/-- A located node: the focused subtree plus the chain of contexts up to
the root, innermost first.  This supplies the Parent / PrevSibling /
FirstChild pointers of `html.Node`. -/
structure Loc where
  cur : Node
  crumbs : List Crumb

/-- Rebuild the parent node of a focus `cur` from its crumb. -/
def assembleParent (c : Crumb) (cur : Node) : Node :=
  Node.mk c.ntype c.dataAtom c.data c.attr (c.before.reverse ++ cur :: c.after)

/-- The Parent link. -/
def parentLoc : Loc → Option Loc
  | ⟨_, []⟩ => none
  | ⟨cur, c :: rest⟩ => some ⟨assembleParent c cur, rest⟩

def ancestorsAux : Node → List Crumb → List Loc
  | _, [] => []
  | cur, c :: rest =>
      ⟨assembleParent c cur, rest⟩ :: ancestorsAux (assembleParent c cur) rest

/-- The chain of ancestors reached by following Parent links, nearest
first (the walk of `descendantMatch`). -/
def ancestorLocs (l : Loc) : List Loc :=
  ancestorsAux l.cur l.crumbs

def prevAux (nt : NodeType) (da : Nat) (dt : Str) (attrs : List Attribute)
    (rest : List Crumb) : List Node → List Node → List Loc
  | [], _ => []
  | b :: bs, aft =>
      ⟨b, ⟨nt, da, dt, attrs, bs, aft⟩ :: rest⟩ :: prevAux nt da dt attrs rest bs (b :: aft)

/-- The chain of previous siblings reached by following PrevSibling links,
nearest first (the walk of `siblingMatch`). -/
def prevLocs : Loc → List Loc
  | ⟨_, []⟩ => []
  | ⟨cur, c :: rest⟩ => prevAux c.ntype c.dataAtom c.data c.attr rest c.before (cur :: c.after)

def childAux (nt : NodeType) (da : Nat) (dt : Str) (attrs : List Attribute)
    (crumbs : List Crumb) : List Node → List Node → List Loc
  | _, [] => []
  | bef, c :: aft =>
      ⟨c, ⟨nt, da, dt, attrs, bef, aft⟩ :: crumbs⟩ :: childAux nt da dt attrs crumbs (c :: bef) aft

/-- The children of a located node as located nodes, in document order
(the FirstChild / NextSibling iteration of the traversals). -/
def childLocs : Loc → List Loc
  | ⟨Node.mk nt da dt attrs ch, crumbs⟩ => childAux nt da dt attrs crumbs [] ch

/-- `matchAttribute` (selector.go): true when some attribute of `n` named
`key` has a value satisfying `f`; the Go loop returns at the first such
pair. -/
def matchAttribute (n : Node) (key : Str) (f : Str → Bool) : Bool :=
  go n.attr
where
  go : List Attribute → Bool
    | [] => false
    | a :: rest => if a.key = key ∧ f a.val then true else go rest

/-- `attributeNotEqualMatch` (selector.go): non-elements never match;
an element matches unless some attribute pair is exactly (key, val). -/
def attributeNotEqualMatch (key val : Str) (n : Node) : Bool :=
  if n.ntype ≠ NodeType.elementNode then false
  else go n.attr
where
  go : List Attribute → Bool
    | [] => true
    | a :: rest => if a.key = key ∧ a.val = val then false else go rest

/-- Membership in `spaceAsciiSet = makeASCIISet " \t\r\n\f")` of
selector.go: the five CSS whitespace characters. -/
def isCssSpace (c : Char) : Bool :=
  c = ' ' || c = '\t' || c = '\r' || c = '\n' || c = '\x0c'

/-- `asciiSet.index` specialised to `spaceAsciiSet`: position of the first
CSS whitespace character, `none` for the Go return value -1. -/
def indexSpace : Str → Option Nat
  | [] => none
  | c :: rest => if isCssSpace c then some 0 else (indexSpace rest).map (· + 1)

/-- `matchInclude` (selector.go): repeatedly cut the attribute value at
its first whitespace character, comparing each chunk with `val`. -/
def matchInclude (val : Str) (s : Str) : Bool :=
  if hs : s = [] then false
  else
    match indexSpace s with
    | none => s = val
    | some i =>
        if s.take i = val then true
        else matchInclude val (s.drop (i + 1))
termination_by s.length
decreasing_by
  simp only [List.length_drop]
  have hlen : 0 < s.length := List.length_pos.mpr hs
  omega

/-- `unicode.IsSpace` as used by `strings.TrimSpace` (Latin-1 range; code
points above Latin-1 in category Zs never appear in the claims). -/
def isSpaceRune (c : Char) : Bool :=
  c = ' ' || c = '\t' || c = '\n' || c = '\x0b' || c = '\x0c' || c = '\r' ||
  c = '\x85' || c = '\xa0'

/-- `strings.TrimSpace s == ""`: every character of `s` is whitespace. -/
def trimmedEmpty (s : Str) : Bool :=
  s.all isSpaceRune

/-- `attributeDashMatch` (selector.go). -/
def attributeDashMatch (key val : Str) (n : Node) : Bool :=
  matchAttribute n key fun s =>
    if s = val then true
    else if s.length ≤ val.length then false
    else if s.take val.length = val ∧ s.get? val.length = some '-' then true
    else false

/-- `attributePrefixMatch` (selector.go). -/
def attributePrefixMatch (key val : Str) (n : Node) : Bool :=
  matchAttribute n key fun s =>
    if trimmedEmpty s then false else val.isPrefixOf s

/-- `attributeSuffixMatch` (selector.go). -/
def attributeSuffixMatch (key val : Str) (n : Node) : Bool :=
  matchAttribute n key fun s =>
    if trimmedEmpty s then false else val.isSuffixOf s

/-- `strings.Contains s sub`. -/
def strContains (s sub : Str) : Bool :=
  if sub.isPrefixOf s then true
  else
    match s with
    | [] => false
    | _ :: t => strContains t sub

/-- `attributeSubstringMatch` (selector.go). -/
def attributeSubstringMatch (key val : Str) (n : Node) : Bool :=
  matchAttribute n key fun s =>
    if trimmedEmpty s then false else strContains s val

/-- `attributeRegexMatch` (selector.go); the compiled `*regexp.Regexp` is
embedded as its `MatchString` function. -/
def attributeRegexMatch (key : Str) (rx : Str → Bool) (n : Node) : Bool :=
  matchAttribute n key fun s => rx s

/-- The selector AST of selector.go.  The Go code uses interface dispatch
over these closed struct types; pseudo-class selectors (pseudo_classes.go,
outside the sources under study) are not needed by any claim and are
omitted from the variant set. -/
inductive Sel where
  /-- `tagSelector`: `tagS` string fallback and `tag` atom. -/
  | tag (tagS : Str) (tagAtom : Nat)
  /-- `classSelector`. -/
  | classSel (cl : Str)
  /-- `idSelector`. -/
  | idSel (idv : Str)
  /-- `attrSelector`: key, val, operation and the optional compiled regexp
  (as its match function; `none` is a nil `*regexp.Regexp`). -/
  | attr (key val operation : Str) (rx : Option (Str → Bool))
  /-- `neverMatchSelector`. -/
  | never (value : Str)
  /-- `compoundSelector`. -/
  | compound (selectors : List Sel) (pseudoElement : Str)
  /-- `combinedSelector`; `first` and `second` are nilable in Go, hence
  `Option`. -/
  | combined (first : Option Sel) (combinator : Char) (second : Option Sel)

/-- `attrSelector.Match` (selector.go): dispatch on the operation string.
The Go default branch panics on an unknown operation; that branch (and the
nil-regexp dereference for `#=`) is modelled as `false` and is exercised by
no claim. -/
def attrSelMatch (key val operation : Str) (rx : Option (Str → Bool)) (n : Node) : Bool :=
  if operation = [] then matchAttribute n key fun _ => true
  else if operation = ['='] then matchAttribute n key fun s => s = val
  else if operation = ['!', '='] then attributeNotEqualMatch key val n
  else if operation = ['~', '='] then matchAttribute n key fun s => matchInclude val s
  else if operation = ['|', '='] then attributeDashMatch key val n
  else if operation = ['^', '='] then attributePrefixMatch key val n
  else if operation = ['$', '='] then attributeSuffixMatch key val n
  else if operation = ['*', '='] then attributeSubstringMatch key val n
  else if operation = ['#', '='] then
    match rx with
    | some r => attributeRegexMatch key r n
    | none => false
  else false

/-- True when the located node is a text or comment node (the kinds the
adjacent-sibling walk skips). -/
def isTextOrComment (l : Loc) : Bool :=
  l.cur.ntype = NodeType.textNode || l.cur.ntype = NodeType.commentNode

/-- The adjacent branch of `siblingMatch`: walk the previous siblings,
skip text and comment nodes, and decide at the first other node. -/
def adjacentWalk (f : Loc → Bool) : List Loc → Bool
  | [] => false
  | p :: rest => if isTextOrComment p then adjacentWalk f rest else f p

/-- `descendantMatch` (selector.go). -/
def descendantMatch (a d : Loc → Bool) (l : Loc) : Bool :=
  if ¬ d l then false
  else (ancestorLocs l).any a

/-- `childMatch` (selector.go). -/
def childMatch (a d : Loc → Bool) (l : Loc) : Bool :=
  d l &&
    match parentLoc l with
    | some p => a p
    | none => false

/-- `siblingMatch` (selector.go). -/
def siblingMatch (s1 s2 : Loc → Bool) (adjacent : Bool) (l : Loc) : Bool :=
  if ¬ s2 l then false
  else if adjacent then adjacentWalk s1 (prevLocs l)
  else (prevLocs l).any s1

mutual

/-- The `Match` methods of selector.go as one dispatch over the AST.
For `combinedSelector`, a nil `first` yields `false` (the explicit guard in
the source); a nil `second` reached with a real combinator, and the default
combinator branch, panic in the source and are modelled as `false` —
exercised by no claim. -/
def matchSel : Sel → Loc → Bool
  | .tag tagS tagAtom, l =>
      l.cur.ntype = NodeType.elementNode &&
        ((l.cur.dataAtom ≠ 0 && l.cur.dataAtom = tagAtom) || l.cur.data = tagS)
  | .classSel cl, l =>
      matchAttribute l.cur ['c', 'l', 'a', 's', 's'] fun s => matchInclude cl s
  | .idSel idv, l =>
      matchAttribute l.cur ['i', 'd'] fun s => s = idv
  | .attr key val operation rx, l => attrSelMatch key val operation rx l.cur
  | .never _, _ => false
  | .compound sels pe, l => matchCompound sels pe l
  | .combined none _ _, _ => false
  | .combined (some s1) comb second, l =>
      if comb = Char.ofNat 0 then matchSel s1 l
      else
        match second with
        | none => false
        | some s2 =>
            if comb = ' ' then descendantMatch (fun p => matchSel s1 p) (fun p => matchSel s2 p) l
            else if comb = '>' then childMatch (fun p => matchSel s1 p) (fun p => matchSel s2 p) l
            else if comb = '+' then siblingMatch (fun p => matchSel s1 p) (fun p => matchSel s2 p) true l
            else if comb = '~' then siblingMatch (fun p => matchSel s1 p) (fun p => matchSel s2 p) false l
            else false
termination_by s _ => sizeOf s

/-- `compoundSelector.Match` (selector.go). -/
def matchCompound (sels : List Sel) (_pe : Str) (l : Loc) : Bool :=
  if sels.isEmpty then l.cur.ntype = NodeType.elementNode
  else sels.attach.all fun s => matchSel s.1 l
termination_by sizeOf sels
decreasing_by
  exact List.sizeOf_lt_of_mem s.2

end

/-- Modelled from the spec: the `Specificity` type and its `Add` method are
defined in specificity.go, which is not among the sources under study;
§3 and §4.4 of the spec describe it as an (id-count, class-count,
type-count) triple whose `Add` is the component-wise sum. -/
structure Specificity where
  idCount : Nat
  classCount : Nat
  typeCount : Nat
  deriving DecidableEq, Repr

/-- Modelled from the spec: component-wise sum (`Specificity.Add`). -/
def Specificity.add (s t : Specificity) : Specificity :=
  ⟨s.idCount + t.idCount, s.classCount + t.classCount, s.typeCount + t.typeCount⟩

/-- The `Specificity` methods of selector.go as one dispatch over the AST.
For `combinedSelector` the source dereferences `first` without a nil check
(a nil `first` would panic; modelled as the zero triple, exercised by no
claim) and guards `second` against nil. -/
def specificity : Sel → Specificity
  | .tag _ _ => ⟨0, 0, 1⟩
  | .classSel _ => ⟨0, 1, 0⟩
  | .idSel _ => ⟨1, 0, 0⟩
  | .attr _ _ _ _ => ⟨0, 1, 0⟩
  | .never _ => ⟨0, 0, 0⟩
  | .compound sels pe =>
      let out := sels.attach.foldl (fun acc s => acc.add (specificity s.1)) ⟨0, 0, 0⟩
      if pe ≠ [] then out.add ⟨0, 0, 1⟩ else out
  | .combined first _ second =>
      let spec :=
        match first with
        | some s1 => specificity s1
        | none => ⟨0, 0, 0⟩
      match second with
      | some s2 => spec.add (specificity s2)
      | none => spec
termination_by s => sizeOf s
decreasing_by
  · exact Nat.lt_of_lt_of_le (List.sizeOf_lt_of_mem s.2) (by simp; omega)
  · simp
    omega
  · simp
    omega

lemma length_dropWhile_le {α : Type} (p : α → Bool) (l : List α) :
    (l.dropWhile p).length ≤ l.length := by
  induction l with
  | nil => simp [List.dropWhile]
  | cons c t ih =>
      simp only [List.dropWhile]
      cases p c
      · simp
      · simp
        omega

/-- The whitespace tokenization of §4.2 of the spec: the attribute value is
split on runs of the CSS whitespace set, leading and trailing empty tokens
discarded (runs produce no interior empties). -/
def cssTokens : Str → List Str
  | [] => []
  | c :: rest =>
      if isCssSpace c then cssTokens rest
      else (c :: rest.takeWhile (fun x => !isCssSpace x)) ::
             cssTokens (rest.dropWhile (fun x => !isCssSpace x))
termination_by s => s.length
decreasing_by
  · simp
  · have h := length_dropWhile_le (fun x => !isCssSpace x) rest
    simp
    omega

/-- The structured content of the trailing-input error
`fmt.Errorf("parsing %q: %d bytes left over", sel, len(sel)-p.i)`;
`other` stands for any error produced by the inner parser itself. -/
inductive ParseError where
  | leftover (sel : Str) (count : Nat)
  | other (msg : Str)
  deriving DecidableEq, Repr

/-- A `SelectorGroup` is a list of selectors. -/
abbrev SelectorGroup := List Sel

/-- The wrapper shared by `Parse`, `ParseWithPseudoElement`, `ParseGroup`
and `ParseGroupWithPseudoElements` (selector.go): run the inner parse on a
parser state starting at index 0, and if it succeeds with the final index
`p.i` strictly before the end of the input, fail with the leftover error.
The inner parse (parser.go, not among the sources under study) is a
parameter, given as a function from the input to its result and final
index. -/
def parseTemplate {α : Type} (inner : Str → Except ParseError (α × Nat))
    (sel : Str) : Except ParseError α :=
  match inner sel with
  | .error e => .error e
  | .ok (compiled, i) =>
      if i < sel.length then .error (.leftover sel (sel.length - i))
      else .ok compiled

/-- `Parse` (selector.go), parameterized by `parseSelector`. -/
def Parse (parseSelector : Str → Except ParseError (Sel × Nat)) (sel : Str) :
    Except ParseError Sel :=
  parseTemplate parseSelector sel

/-- `ParseWithPseudoElement` (selector.go), parameterized by its inner
parse (`parseSelector` on a state with `acceptPseudoElements` set). -/
def ParseWithPseudoElement (parseSelector : Str → Except ParseError (Sel × Nat))
    (sel : Str) : Except ParseError Sel :=
  parseTemplate parseSelector sel

/-- `ParseGroup` (selector.go), parameterized by `parseSelectorGroup`. -/
def ParseGroup (parseSelectorGroup : Str → Except ParseError (SelectorGroup × Nat))
    (sel : Str) : Except ParseError SelectorGroup :=
  parseTemplate parseSelectorGroup sel

/-- `ParseGroupWithPseudoElements` (selector.go), parameterized by its
inner parse. -/
def ParseGroupWithPseudoElements (parseSelectorGroup : Str → Except ParseError (SelectorGroup × Nat))
    (sel : Str) : Except ParseError SelectorGroup :=
  parseTemplate parseSelectorGroup sel

lemma cur_mem_of_mem_childAux {nt da dt attrs crumbs} :
    ∀ {bef rem} {l' : Loc}, l' ∈ childAux nt da dt attrs crumbs bef rem → l'.cur ∈ rem := by
  intro bef rem
  induction rem generalizing bef with
  | nil => intro l' h; simp [childAux] at h
  | cons c aft ih =>
      intro l' h
      simp only [childAux, List.mem_cons] at h
      rcases h with h | h
      · subst h; simp
      · exact List.mem_cons_of_mem _ (ih h)

lemma cur_mem_children_of_mem_childLocs {l' l : Loc} (h : l' ∈ childLocs l) :
    l'.cur ∈ l.cur.children := by
  obtain ⟨⟨nt, da, dt, attrs, ch⟩, crumbs⟩ := l
  exact cur_mem_of_mem_childAux h

lemma sizeOf_lt_of_mem_children {n' n : Node} (h : n' ∈ n.children) :
    sizeOf n' < sizeOf n := by
  cases n with
  | mk nt da dt attrs ch =>
      have hch := List.sizeOf_lt_of_mem h
      simp only [Node.mk.sizeOf_spec]
      simp only [Node.children] at hch
      omega

lemma sizeOf_cur_lt_of_mem_childLocs {l' l : Loc} (h : l' ∈ childLocs l) :
    sizeOf l'.cur < sizeOf l.cur :=
  sizeOf_lt_of_mem_children (cur_mem_children_of_mem_childLocs h)

/-- `Selector.matchAllInto` (selector.go): append the node itself when it
matches, then recurse into the children in order. -/
def matchAllInto (s : Loc → Bool) (l : Loc) (storage : List Loc) : List Loc :=
  (childLocs l).attach.foldl (fun acc c => matchAllInto s c.1 acc)
    (if s l then storage ++ [l] else storage)
termination_by sizeOf l.cur
decreasing_by
  exact sizeOf_cur_lt_of_mem_childLocs c.2

/-- `Selector.MatchAll` (selector.go). -/
def MatchAll (s : Loc → Bool) (l : Loc) : List Loc :=
  matchAllInto s l []

/-- `queryInto` (selector.go): for each child in order, append it when it
matches, then recurse into it. -/
def queryInto (m : Loc → Bool) (l : Loc) (storage : List Loc) : List Loc :=
  (childLocs l).attach.foldl
    (fun acc c => queryInto m c.1 (if m c.1 then acc ++ [c.1] else acc)) storage
termination_by sizeOf l.cur
decreasing_by
  exact sizeOf_cur_lt_of_mem_childLocs c.2

/-- `QueryAll` (selector.go). -/
def QueryAll (l : Loc) (m : Loc → Bool) : List Loc :=
  queryInto m l []

/-- The strict descendants of a located node in depth-first pre-order
document order (spec §4.6). -/
def descendantsPre (l : Loc) : List Loc :=
  (childLocs l).attach.flatMap fun c => c.1 :: descendantsPre c.1
termination_by sizeOf l.cur
decreasing_by
  exact sizeOf_cur_lt_of_mem_childLocs c.2

/-! ## Theorems -/

/-- The lookup discipline described by the spec ("first-match-wins"):
evaluate the predicate on the value of the first attribute pair whose key
matches, ignoring later pairs. -/
def matchAttributeFirst (n : Node) (key : Str) (f : Str → Bool) : Bool :=
  match n.attr.find? (fun a => a.key == key) with
  | some a => f a.val
  | none => false

/-- A node whose ordered attribute list holds the key `k` twice, with
values `a` then `b`. -/
def nodeDupKeys : Node :=
  Node.mk .elementNode 0 [] [⟨['k'], ['a']⟩, ⟨['k'], ['b']⟩] []

/-- A node whose ordered attribute list holds the key `k` twice, with
values `a` then `v`. -/
def nodeDupAV : Node :=
  Node.mk .elementNode 0 [] [⟨['k'], ['a']⟩, ⟨['k'], ['v']⟩] []

/-- A text node with no attributes. -/
def textNodeEx : Node :=
  Node.mk .textNode 0 [] [] []

lemma matchAttribute_go_iff (key : Str) (f : Str → Bool) (attrs : List Attribute) :
    matchAttribute.go key f attrs = true ↔ ∃ a ∈ attrs, a.key = key ∧ f a.val = true := by
  induction attrs with
  | nil => simp [matchAttribute.go]
  | cons a rest ih =>
      by_cases h : a.key = key ∧ f a.val = true
      · simp [matchAttribute.go, h]
      · rw [matchAttribute.go, if_neg (by simpa using h), ih]
        simp only [List.mem_cons]
        constructor
        · rintro ⟨b, hb, hk⟩
          exact ⟨b, Or.inr hb, hk⟩
        · rintro ⟨b, hb | hb, hk⟩
          · subst hb; exact absurd hk h
          · exact ⟨b, hb, hk⟩

lemma attributeNotEqualMatch_go_iff (key val : Str) (attrs : List Attribute) :
    attributeNotEqualMatch.go key val attrs = true ↔
      ∀ a ∈ attrs, a.key = key → a.val ≠ val := by
  induction attrs with
  | nil => simp [attributeNotEqualMatch.go]
  | cons a rest ih =>
      by_cases h : a.key = key ∧ a.val = val
      · rw [attributeNotEqualMatch.go, if_pos (by simpa using h)]
        simp only [Bool.false_eq_true, false_iff]
        intro hall
        exact (hall a (List.mem_cons_self a rest) h.1) h.2
      · rw [attributeNotEqualMatch.go, if_neg (by simpa using h), ih]
        simp only [List.mem_cons]
        constructor
        · intro hall b hb hk
          rcases hb with hb | hb
          · subst hb
            intro hv
            exact h ⟨hk, hv⟩
          · exact hall b hb hk
        · intro hall b hb hk
          exact hall b (Or.inr hb) hk

/-- C3 (counterexample): on a node whose attribute list holds the key `k`
twice with values `a` then `b`, the `=` selector `[k="b"]` matches, while
evaluating its predicate on the value of the first `k` pair (value `a`)
rejects — so a later pair with the key does affect the result, refuting
first-match-wins lookup. -/
theorem attr_first_match_counterexample :
    attrSelMatch ['k'] ['b'] ['='] none nodeDupKeys = true ∧
    matchAttributeFirst nodeDupKeys ['k'] (fun s => decide (s = ['b'])) = false := by
  decide

/-- C3 (amended): attribute lookup is any-match, not first-match-wins:
`matchAttribute` holds exactly when some attribute pair with the
selector's key satisfies the operator's predicate, so each of the
`matchAttribute`-based operators (exists, =, ~=, |=, ^=, $=, *=, regex)
matches on the best pair with the key, not necessarily the first. -/
theorem attr_lookup_any_match (n : Node) (key : Str) (f : Str → Bool) :
    matchAttribute n key f = true ↔ ∃ a ∈ n.attr, a.key = key ∧ f a.val = true := by
  rw [matchAttribute, matchAttribute_go_iff]

/-- C4 (counterexample): a text node with no attribute named `k` does not
match `[k!="v"]` (the claim predicts a match for any node lacking the
attribute), and an element holding `k` twice with values `a` and `v` does
not match either, although it has the attribute `k` with the value `a`
different from `v`. -/
theorem attr_not_equal_counterexample :
    attrSelMatch ['k'] ['v'] ['!', '='] none textNodeEx = false ∧
    textNodeEx.attr = [] ∧
    attrSelMatch ['k'] ['v'] ['!', '='] none nodeDupAV = false ∧
    nodeDupAV.attr = [⟨['k'], ['a']⟩, ⟨['k'], ['v']⟩] := by
  decide

/-- C4 (amended): the `!=` attribute selector matches exactly the element
nodes in which no attribute pair named `k` carries the value `v` (so `k`
absent, or every occurrence of `k` has a value different from `v`);
non-element nodes never match. -/
theorem attr_not_equal_spec (k v : Str) (l : Loc) :
    matchSel (.attr k v ['!', '='] none) l = true ↔
      l.cur.ntype = NodeType.elementNode ∧
        ∀ a ∈ l.cur.attr, a.key = k → a.val ≠ v := by
  have hop : matchSel (.attr k v ['!', '='] none) l =
      attributeNotEqualMatch k v l.cur := by
    simp [matchSel, attrSelMatch]
  rw [hop, attributeNotEqualMatch]
  by_cases ht : l.cur.ntype = NodeType.elementNode
  · rw [if_neg (by simpa using ht), attributeNotEqualMatch_go_iff]
    simp [ht]
  · rw [if_pos (by simpa using ht)]
    simp [ht]

/-- C8: a compound selector with an empty member list matches exactly the
element nodes; with a non-empty member list it matches exactly the nodes
every member matches. -/
theorem compound_match_spec (sels : List Sel) (pe : Str) (l : Loc) :
    matchSel (.compound sels pe) l = true ↔
      ((sels = [] ∧ l.cur.ntype = NodeType.elementNode) ∨
       (sels ≠ [] ∧ ∀ s ∈ sels, matchSel s l = true)) := by
  rw [matchSel]
  cases sels with
  | nil => simp [matchCompound]
  | cons s0 rest =>
      rw [matchCompound]
      simp only [List.isEmpty_cons, Bool.false_eq_true, if_false]
      rw [List.all_eq_true]
      constructor
      · intro h
        refine Or.inr ⟨by simp, fun s hs => ?_⟩
        exact h ⟨s, hs⟩ (List.mem_attach _ _)
      · rintro (⟨h, _⟩ | ⟨_, h⟩)
        · exact absurd h (by simp)
        · rintro ⟨s, hs⟩ _
          exact h s hs

/-- C10: a combined selector whose first sub-selector is nil matches no
node: the nil-first branch of `Match` is total and always false. -/
theorem combined_nil_first_false (comb : Char) (second : Option Sel) (l : Loc) :
    matchSel (.combined none comb second) l = false := by
  simp [matchSel]

lemma parseTemplate_leftover {α : Type} (inner : Str → Except ParseError (α × Nat))
    (sel : Str) (v : α) (i : Nat) (h : inner sel = .ok (v, i)) (hi : i < sel.length) :
    parseTemplate inner sel = .error (.leftover sel (sel.length - i)) := by
  rw [parseTemplate, h]
  simp [hi]

lemma parseTemplate_ok {α : Type} (inner : Str → Except ParseError (α × Nat))
    (sel : Str) (v : α) (h : parseTemplate inner sel = .ok v) :
    ∃ i, inner sel = .ok (v, i) ∧ sel.length ≤ i := by
  rw [parseTemplate] at h
  cases hin : inner sel with
  | error e => rw [hin] at h; cases h
  | ok p =>
      obtain ⟨c, i⟩ := p
      rw [hin] at h
      by_cases hi : i < sel.length
      · simp [hi] at h
      · simp only [if_neg hi, Except.ok.injEq] at h
        exact ⟨i, by rw [h], Nat.le_of_not_lt hi⟩

/-- C2: for each of the four entry points, if the inner parse succeeds but
its final index is strictly before the end of the input, the entry point
returns the trailing-input error carrying the count of unconsumed bytes;
and whenever an entry point succeeds, the inner parse consumed the entire
input. -/
theorem parse_trailing_input
    (pS pSP : Str → Except ParseError (Sel × Nat))
    (pG pGP : Str → Except ParseError (SelectorGroup × Nat))
    (sel : Str) :
    ((∀ v i, pS sel = .ok (v, i) → i < sel.length →
        Parse pS sel = .error (.leftover sel (sel.length - i))) ∧
     (∀ v, Parse pS sel = .ok v → ∃ i, pS sel = .ok (v, i) ∧ sel.length ≤ i)) ∧
    ((∀ v i, pSP sel = .ok (v, i) → i < sel.length →
        ParseWithPseudoElement pSP sel = .error (.leftover sel (sel.length - i))) ∧
     (∀ v, ParseWithPseudoElement pSP sel = .ok v →
        ∃ i, pSP sel = .ok (v, i) ∧ sel.length ≤ i)) ∧
    ((∀ v i, pG sel = .ok (v, i) → i < sel.length →
        ParseGroup pG sel = .error (.leftover sel (sel.length - i))) ∧
     (∀ v, ParseGroup pG sel = .ok v → ∃ i, pG sel = .ok (v, i) ∧ sel.length ≤ i)) ∧
    ((∀ v i, pGP sel = .ok (v, i) → i < sel.length →
        ParseGroupWithPseudoElements pGP sel = .error (.leftover sel (sel.length - i))) ∧
     (∀ v, ParseGroupWithPseudoElements pGP sel = .ok v →
        ∃ i, pGP sel = .ok (v, i) ∧ sel.length ≤ i)) := by
  exact ⟨⟨fun v i h hi => parseTemplate_leftover pS sel v i h hi,
          fun v h => parseTemplate_ok pS sel v h⟩,
         ⟨fun v i h hi => parseTemplate_leftover pSP sel v i h hi,
          fun v h => parseTemplate_ok pSP sel v h⟩,
         ⟨fun v i h hi => parseTemplate_leftover pG sel v i h hi,
          fun v h => parseTemplate_ok pG sel v h⟩,
         ⟨fun v i h hi => parseTemplate_leftover pGP sel v i h hi,
          fun v h => parseTemplate_ok pGP sel v h⟩⟩

/-- An inner single-selector parse that stops after one byte. -/
def innerSelStub : Str → Except ParseError (Sel × Nat) :=
  fun _ => .ok (Sel.never [], 1)

/-- An inner group parse that stops after one byte. -/
def innerGroupStub : Str → Except ParseError (SelectorGroup × Nat) :=
  fun _ => .ok ([], 1)

/-- Witness for C2 at a concrete inner parser and input: parsing a
three-byte input whose inner parse stops at index 1 yields the
trailing-input error counting 2 leftover bytes. -/
theorem parse_trailing_input_witness :
    Parse innerSelStub ['a', 'b', 'c'] = .error (.leftover ['a', 'b', 'c'] 2) :=
  (parse_trailing_input innerSelStub innerSelStub innerGroupStub innerGroupStub
    ['a', 'b', 'c']).1.1 (Sel.never []) 1 rfl (by decide)

lemma spec_add_zero (x : Specificity) : x.add ⟨0, 0, 0⟩ = x := by
  cases x
  simp [Specificity.add]

lemma spec_zero_add (x : Specificity) : Specificity.add ⟨0, 0, 0⟩ x = x := by
  cases x
  simp [Specificity.add]

/-- The component-wise sum of a list of specificities (spec §4.4). -/
def sumSpecs (l : List Specificity) : Specificity :=
  ⟨(l.map Specificity.idCount).sum, (l.map Specificity.classCount).sum,
   (l.map Specificity.typeCount).sum⟩

lemma foldl_add_eq_sumSpecs (l : List Specificity) :
    ∀ z : Specificity, l.foldl Specificity.add z = z.add (sumSpecs l) := by
  induction l with
  | nil =>
      intro z
      simp [sumSpecs, spec_add_zero]
  | cons s rest ih =>
      intro z
      have hsum : sumSpecs (s :: rest) = s.add (sumSpecs rest) := by
        simp [sumSpecs, Specificity.add]
      rw [List.foldl_cons, ih, hsum]
      cases z
      cases s
      cases sumSpecs rest
      simp [Specificity.add]
      omega

/-- C7: the specificity of a compound selector is the component-wise sum
of its members' specificities, plus an extra (0,0,1) exactly when the
compound carries a non-empty pseudo-element. -/
theorem compound_specificity_spec (sels : List Sel) (pe : Str) :
    specificity (.compound sels pe) =
      (sumSpecs (sels.map specificity)).add
        (if pe = [] then ⟨0, 0, 0⟩ else ⟨0, 0, 1⟩) := by
  rw [specificity]
  have hat := List.foldl_attach sels (fun acc s => acc.add (specificity s))
    (⟨0, 0, 0⟩ : Specificity)
  rw [hat, ← List.foldl_map, foldl_add_eq_sumSpecs, spec_zero_add]
  by_cases hpe : pe = []
  · simp [hpe, spec_add_zero]
  · simp [hpe]

lemma adjacentWalk_iff (f : Loc → Bool) (ls : List Loc) :
    adjacentWalk f ls = true ↔
      ∃ p, ls.find? (fun q => !(isTextOrComment q)) = some p ∧ f p = true := by
  induction ls with
  | nil => simp [adjacentWalk]
  | cons p rest ih =>
      by_cases h : isTextOrComment p = true
      · rw [adjacentWalk, if_pos h, ih, List.find?_cons_of_neg _ (by simp [h])]
      · have h' : isTextOrComment p = false := by simpa using h
        rw [adjacentWalk, if_neg h, List.find?_cons_of_pos _ (by simp [h'])]
        constructor
        · intro hp
          exact ⟨p, rfl, hp⟩
        · rintro ⟨q, hq, hfq⟩
          cases hq
          exact hfq

/-- C6: a combined selector `left + right` matches exactly the nodes that
match `right` and whose nearest preceding sibling that is neither a text
node nor a comment node exists and matches `left`. -/
theorem adjacent_sibling_spec (s1 s2 : Sel) (l : Loc) :
    matchSel (.combined (some s1) '+' (some s2)) l = true ↔
      (matchSel s2 l = true ∧
        ∃ p, (prevLocs l).find? (fun q => !(isTextOrComment q)) = some p ∧
          matchSel s1 p = true) := by
  have h0 : matchSel (.combined (some s1) '+' (some s2)) l =
      siblingMatch (fun p => matchSel s1 p) (fun p => matchSel s2 p) true l := by
    rw [matchSel]
    rw [if_neg (by decide), if_neg (by decide), if_neg (by decide), if_pos rfl]
  rw [h0, siblingMatch]
  by_cases h2 : matchSel s2 l = true
  · rw [if_neg (by simp [h2]), if_pos rfl, adjacentWalk_iff]
    simp [h2]
  · rw [if_pos (by simp [h2])]
    simp [h2]

lemma indexSpace_none_split (s : Str) (h : indexSpace s = none) :
    s.takeWhile (fun x => !isCssSpace x) = s ∧ s.dropWhile (fun x => !isCssSpace x) = [] := by
  induction s with
  | nil => simp
  | cons c rest ih =>
      rw [indexSpace] at h
      by_cases hc : isCssSpace c = true
      · rw [if_pos hc] at h
        cases h
      · have hc' : isCssSpace c = false := by simpa using hc
        rw [if_neg hc] at h
        have hrest : indexSpace rest = none := by
          cases hr : indexSpace rest
          · rfl
          · rw [hr] at h
            cases h
        obtain ⟨h1, h2⟩ := ih hrest
        simp [List.takeWhile_cons, List.dropWhile_cons, hc', h1, h2]

lemma indexSpace_some_split (s : Str) : ∀ k, indexSpace s = some k →
    s.takeWhile (fun x => !isCssSpace x) = s.take k ∧
    s.dropWhile (fun x => !isCssSpace x) = s.drop k ∧
    ∃ c r, s.drop k = c :: r ∧ isCssSpace c = true := by
  induction s with
  | nil =>
      intro k h
      cases h
  | cons c rest ih =>
      intro k h
      rw [indexSpace] at h
      by_cases hc : isCssSpace c = true
      · rw [if_pos hc] at h
        cases h
        refine ⟨?_, ?_, c, rest, rfl, hc⟩
        · simp [List.takeWhile_cons, hc]
        · simp [List.dropWhile_cons, hc]
      · have hc' : isCssSpace c = false := by simpa using hc
        rw [if_neg hc] at h
        cases hrest : indexSpace rest with
        | none =>
            rw [hrest] at h
            cases h
        | some i =>
            rw [hrest] at h
            have hk : k = i + 1 := by
              cases h
              rfl
            subst hk
            obtain ⟨h1, h2, c', r, hdrop, hc2⟩ := ih i hrest
            refine ⟨?_, ?_, c', r, ?_, hc2⟩
            · simp [List.takeWhile_cons, hc', h1, List.take_succ_cons]
            · simp [List.dropWhile_cons, hc', h2, List.drop_succ_cons]
            · rw [List.drop_succ_cons, hdrop]

/-- C5 (counterexample): matchInclude accepts the empty value on the
one-space string, yet the run-split token list of that string is empty, so
an empty value is in particular not one of its elements. -/
theorem matchInclude_empty_val_counterexample :
    matchInclude [] [' '] = true ∧ ¬ ([] ∈ cssTokens [' ']) := by
  constructor
  · simp [matchInclude, indexSpace, isCssSpace]
  · simp [cssTokens, isCssSpace]

/-- C5 (amended): for every non-empty selector value, matchInclude (hence
`~=` and class matching) holds exactly when the value is one element of
the token list obtained by splitting the attribute value on runs of the
CSS whitespace set with empty tokens discarded; for the empty value the
equivalence fails (see the counterexample). -/
theorem matchInclude_tokens_spec (val s : Str) (hval : val ≠ []) :
    matchInclude val s = true ↔ val ∈ cssTokens s := by
  cases s with
  | nil => simp [matchInclude, cssTokens]
  | cons c rest =>
      rw [matchInclude, dif_neg (List.cons_ne_nil c rest)]
      by_cases hc : isCssSpace c = true
      · have hidx : indexSpace (c :: rest) = some 0 := by rw [indexSpace, if_pos hc]
        simp only [hidx, List.take_zero, List.drop_succ_cons, List.drop_zero]
        rw [if_neg (fun hh => hval hh.symm), cssTokens, if_pos hc]
        exact matchInclude_tokens_spec val rest hval
      · have hc' : isCssSpace c = false := by simpa using hc
        cases hrest : indexSpace rest with
        | none =>
            have hidx : indexSpace (c :: rest) = none := by
              rw [indexSpace, if_neg hc, hrest]
              rfl
            simp only [hidx]
            obtain ⟨h1, h2⟩ := indexSpace_none_split rest hrest
            rw [cssTokens, if_neg hc, h1, h2, cssTokens]
            simp [eq_comm]
        | some i =>
            have hidx : indexSpace (c :: rest) = some (i + 1) := by
              rw [indexSpace, if_neg hc, hrest]
              rfl
            simp only [hidx, List.take_succ_cons, List.drop_succ_cons]
            obtain ⟨h1, h2, c', r, hdrop, hc2⟩ := indexSpace_some_split rest i hrest
            rw [cssTokens, if_neg hc, h1, h2, hdrop, cssTokens, if_pos hc2]
            have hr : rest.drop (i + 1) = r := by
              have hd : rest.drop (i + 1) = (rest.drop i).drop 1 := by
                rw [List.drop_drop]
              rw [hd, hdrop]
              simp
            have hrecur := matchInclude_tokens_spec val (rest.drop (i + 1)) hval
            rw [hr] at hrecur
            by_cases heq : c :: rest.take i = val
            · rw [if_pos heq]
              simp [← heq]
            · rw [if_neg heq, hr, hrecur]
              constructor
              · exact fun hm => List.mem_cons_of_mem _ hm
              · intro hm
                rcases List.mem_cons.mp hm with hm | hm
                · exact absurd hm.symm heq
                · exact hm
termination_by s.length
decreasing_by
  all_goals simp
  all_goals omega

/-- Witness for C5 (amended) at a concrete value and attribute string. -/
theorem matchInclude_tokens_witness :
    (['a'] : Str) ≠ [] ∧
      (matchInclude ['a'] ['b', ' ', 'a'] = true ↔ ['a'] ∈ cssTokens ['b', ' ', 'a']) :=
  ⟨by decide, matchInclude_tokens_spec ['a'] ['b', ' ', 'a'] (by decide)⟩

lemma node_sizeOf_pos (n : Node) : 0 < sizeOf n := by
  cases n
  simp only [Node.mk.sizeOf_spec]
  omega

lemma queryInto_eq (m : Loc → Bool) (l : Loc) (st : List Loc) :
    queryInto m l st =
      (childLocs l).foldl (fun acc c => queryInto m c (if m c then acc ++ [c] else acc)) st := by
  rw [queryInto]
  exact List.foldl_attach (childLocs l)
    (fun acc c => queryInto m c (if m c then acc ++ [c] else acc)) st

lemma matchAllInto_eq (s : Loc → Bool) (l : Loc) (st : List Loc) :
    matchAllInto s l st =
      (childLocs l).foldl (fun acc c => matchAllInto s c acc)
        (if s l then st ++ [l] else st) := by
  rw [matchAllInto]
  exact List.foldl_attach (childLocs l) (fun acc c => matchAllInto s c acc) _

lemma descendantsPre_eq (l : Loc) :
    descendantsPre l = (childLocs l).flatMap (fun c => c :: descendantsPre c) := by
  rw [descendantsPre, List.flatMap_def, List.flatMap_def,
    List.attach_map_coe (childLocs l) (fun c => c :: descendantsPre c)]

lemma queryFold_acc (m : Loc → Bool) (cs : List Loc)
    (hcs : ∀ c ∈ cs, ∀ st : List Loc, queryInto m c st = st ++ queryInto m c []) :
    ∀ st, cs.foldl (fun acc c => queryInto m c (if m c then acc ++ [c] else acc)) st
      = st ++ cs.foldl (fun acc c => queryInto m c (if m c then acc ++ [c] else acc)) [] := by
  induction cs with
  | nil =>
      intro st
      simp
  | cons c cs' ih =>
      intro st
      have hc := hcs c (List.mem_cons_self c cs')
      have hcs' : ∀ c' ∈ cs', ∀ st : List Loc, queryInto m c' st = st ++ queryInto m c' [] :=
        fun c' h => hcs c' (List.mem_cons_of_mem _ h)
      simp only [List.foldl_cons]
      rw [ih hcs' (queryInto m c (if m c then st ++ [c] else st)),
          ih hcs' (queryInto m c (if m c then [] ++ [c] else []))]
      have hstep : queryInto m c (if m c then st ++ [c] else st)
          = st ++ queryInto m c (if m c then [] ++ [c] else []) := by
        by_cases hm : m c = true
        · simp only [hm, if_pos]
          rw [hc (st ++ [c]), hc ([] ++ [c]), List.nil_append, List.append_assoc]
        · simp only [hm]
          rw [if_neg (by simp [hm]), if_neg (by simp [hm]), hc st]
      rw [hstep, List.append_assoc]

lemma queryInto_acc (m : Loc → Bool) :
    ∀ (fuel : Nat) (l : Loc), sizeOf l.cur ≤ fuel →
      ∀ st, queryInto m l st = st ++ queryInto m l [] := by
  intro fuel
  induction fuel with
  | zero =>
      intro l hl
      exfalso
      have := node_sizeOf_pos l.cur
      omega
  | succ fuel ih =>
      intro l hl st
      rw [queryInto_eq, queryInto_eq]
      exact queryFold_acc m (childLocs l)
        (fun c hc st' => ih c (by
          have := sizeOf_cur_lt_of_mem_childLocs hc
          omega) st') st

lemma queryInto_append (m : Loc → Bool) (l : Loc) (st : List Loc) :
    queryInto m l st = st ++ queryInto m l [] :=
  queryInto_acc m (sizeOf l.cur) l le_rfl st

lemma queryInto_filter_aux (m : Loc → Bool) :
    ∀ (fuel : Nat) (l : Loc), sizeOf l.cur ≤ fuel →
      queryInto m l [] = (descendantsPre l).filter m := by
  intro fuel
  induction fuel with
  | zero =>
      intro l hl
      exfalso
      have := node_sizeOf_pos l.cur
      omega
  | succ fuel ih =>
      intro l hl
      rw [queryInto_eq, descendantsPre_eq]
      have hsub : ∀ c ∈ childLocs l, sizeOf c.cur ≤ fuel := fun c hc => by
        have := sizeOf_cur_lt_of_mem_childLocs hc
        omega
      revert hsub
      generalize childLocs l = cs
      intro hsub
      induction cs with
      | nil => simp
      | cons c cs' ihc =>
          rw [List.foldl_cons,
              queryFold_acc m cs' (fun c' _ st => queryInto_append m c' st),
              List.flatMap_cons, List.filter_append,
              ihc (fun c' h => hsub c' (List.mem_cons_of_mem _ h))]
          have hF : queryInto m c (if m c then [] ++ [c] else [])
              = (c :: descendantsPre c).filter m := by
            rw [List.filter_cons, queryInto_append,
                ih c (hsub c (List.mem_cons_self c cs'))]
            by_cases hm : m c = true
            · simp [hm]
            · simp [hm]
          rw [hF]

lemma matchFold_acc (s : Loc → Bool) (cs : List Loc)
    (hcs : ∀ c ∈ cs, ∀ st : List Loc, matchAllInto s c st = st ++ matchAllInto s c []) :
    ∀ st, cs.foldl (fun acc c => matchAllInto s c acc) st
      = st ++ cs.foldl (fun acc c => matchAllInto s c acc) [] := by
  induction cs with
  | nil =>
      intro st
      simp
  | cons c cs' ih =>
      intro st
      have hc := hcs c (List.mem_cons_self c cs')
      have hcs' : ∀ c' ∈ cs', ∀ st : List Loc, matchAllInto s c' st = st ++ matchAllInto s c' [] :=
        fun c' h => hcs c' (List.mem_cons_of_mem _ h)
      simp only [List.foldl_cons]
      rw [ih hcs' (matchAllInto s c st), ih hcs' (matchAllInto s c []), hc st,
          List.append_assoc]

lemma matchAllInto_acc (s : Loc → Bool) :
    ∀ (fuel : Nat) (l : Loc), sizeOf l.cur ≤ fuel →
      ∀ st, matchAllInto s l st = st ++ matchAllInto s l [] := by
  intro fuel
  induction fuel with
  | zero =>
      intro l hl
      exfalso
      have := node_sizeOf_pos l.cur
      omega
  | succ fuel ih =>
      intro l hl st
      rw [matchAllInto_eq, matchAllInto_eq]
      have hacc := matchFold_acc s (childLocs l)
        (fun c hc st' => ih c (by
          have := sizeOf_cur_lt_of_mem_childLocs hc
          omega) st')
      rw [hacc (if s l then st ++ [l] else st),
          hacc (if s l then [] ++ [l] else [])]
      by_cases hm : s l = true
      · simp [hm]
      · simp [hm]

lemma matchAllInto_append (s : Loc → Bool) (l : Loc) (st : List Loc) :
    matchAllInto s l st = st ++ matchAllInto s l [] :=
  matchAllInto_acc s (sizeOf l.cur) l le_rfl st

lemma matchAllInto_filter_aux (s : Loc → Bool) :
    ∀ (fuel : Nat) (l : Loc), sizeOf l.cur ≤ fuel →
      matchAllInto s l [] = (l :: descendantsPre l).filter s := by
  intro fuel
  induction fuel with
  | zero =>
      intro l hl
      exfalso
      have := node_sizeOf_pos l.cur
      omega
  | succ fuel ih =>
      intro l hl
      rw [matchAllInto_eq, List.filter_cons]
      have hsub : ∀ c ∈ childLocs l, sizeOf c.cur ≤ fuel := fun c hc => by
        have := sizeOf_cur_lt_of_mem_childLocs hc
        omega
      have hacc := matchFold_acc s (childLocs l)
        (fun c hc st' => matchAllInto_append s c st')
      rw [hacc (if s l then [] ++ [l] else [])]
      have hmain : (childLocs l).foldl (fun acc c => matchAllInto s c acc) []
          = (descendantsPre l).filter s := by
        rw [descendantsPre_eq]
        revert hsub
        generalize childLocs l = cs
        intro hsub
        induction cs with
        | nil => simp
        | cons c cs' ihc =>
            rw [List.foldl_cons,
                matchFold_acc s cs' (fun c' _ st => matchAllInto_append s c' st),
                List.flatMap_cons, List.filter_append,
                ihc (fun c' h => hsub c' (List.mem_cons_of_mem _ h)),
                ih c (hsub c (List.mem_cons_self c cs'))]
      rw [hmain]
      by_cases hm : s l = true
      · simp [hm]
      · simp [hm]

/-- C9: QueryAll returns exactly the strict descendants of the node that
match, in depth-first pre-order document order, and equals MatchAll at the
same node with the node itself removed from the front of the result. -/
theorem queryAll_spec (m : Loc → Bool) (l : Loc) :
    QueryAll l m = (descendantsPre l).filter m ∧
    MatchAll m l = (if m l then [l] else []) ++ QueryAll l m := by
  have h1 : QueryAll l m = (descendantsPre l).filter m :=
    queryInto_filter_aux m (sizeOf l.cur) l le_rfl
  have h2 : MatchAll m l = (l :: descendantsPre l).filter m :=
    matchAllInto_filter_aux m (sizeOf l.cur) l le_rfl
  refine ⟨h1, ?_⟩
  rw [h2, h1, List.filter_cons]
  by_cases hm : m l = true
  · simp [hm]
  · simp [hm]

end Cascadia
